import Mathlib

/-!
Verification of the portfolio allocator core (src/allocator.py).

The embedding is shallow.  Prices are exact rationals (every finite IEEE
double is a rational).  A price table is a list of dated rows, each row an
association list from ticker symbol to price; an absent pair models a
NaN/missing cell.  The weight pipeline works over an IEEE-like value type
`RFloat` with finite, infinite and NaN values, because pandas silently
propagates `inf` and `NaN` through the inverse-volatility arithmetic.
Volatilities carry a real `Real.sqrt` factor, exactly as the source
multiplies the sample standard deviation by `np.sqrt(252)`.
-/

namespace PortfolioAllocator

/-- Association-list lookup by ticker or theme name, first match wins
(a Python dict has unique keys, so first match is the only match). -/
def lookupKey : List (String × α) → String → Option α
  | [], _ => none
  | p :: r, k => if p.1 = k then some p.2 else lookupKey r k

/-- Keys of an association list, in order. -/
def keysOf (l : List (String × α)) : List String := l.map Prod.fst

/-- One dated row of a price (or return) table: ticker to value.
A ticker missing from the list models a NaN cell. -/
abbrev Row := List (String × ℚ)

/-- The price table handed to the core: column labels (tickers) plus the
dated rows in ascending date order.  Mirrors the pandas DataFrame shape. -/
structure PriceTable where
  cols : List String
  rows : List Row

/-- One cell of `price_data.pct_change()`: the fractional return
price[t] / price[t-1] - 1, or `none` (NaN) if either price is absent. -/
def pctCell (prev cur : Row) (c : String) : Option ℚ :=
  match lookupKey prev c, lookupKey cur c with
  | some b, some a => some (a / b - 1)
  | _, _ => none

/-- Whether a pct-change row has a value in every column.  `dropna()` with
its default `how` keeps exactly these rows. -/
def rowComplete (cols : List String) (prev cur : Row) : Bool :=
  cols.all fun c => (pctCell prev cur c).isSome

/-- The materialized pct-change row over the given columns. -/
def returnRow (cols : List String) (prev cur : Row) : Row :=
  cols.filterMap fun c => (pctCell prev cur c).map fun v => (c, v)

/-- Embeds `price_data.pct_change().dropna()`: consecutive-row returns, keeping
only rows where every column has a value. -/
def computeReturns (pt : PriceTable) : List Row :=
  (pt.rows.zip (pt.rows.drop 1)).filterMap fun pc =>
    if rowComplete pt.cols pc.1 pc.2 then some (returnRow pt.cols pc.1 pc.2) else none

/-- Tickers of a theme that appear among the return table's columns
(`[t for t in tickers if t in returns.columns]`; the columns of
`pct_change().dropna()` are exactly the price table's columns). -/
def validTickers (cols : List String) (tickers : List String) : List String :=
  tickers.filter fun t => cols.contains t

/-- Models `returns[valid_tickers].mean(axis=1)` for one row: the unweighted mean
of the present cells among the selected tickers (pandas skips NaN). -/
def rowMean (r : Row) (ts : List String) : ℚ :=
  let vs := ts.filterMap fun t => lookupKey r t
  vs.sum / (vs.length : ℚ)

/-- The theme's equal-weighted daily return series. -/
def themeSeries (pt : PriceTable) (ts : List String) : List ℚ :=
  (computeReturns pt).map fun r => rowMean r ts

/-- Mean of a series. -/
def seriesMean (xs : List ℚ) : ℚ := xs.sum / (xs.length : ℚ)

/-- Sample variance with one delta degree of freedom, as pandas `.std()`
squares out to.  Only used on series of length at least 2. -/
def seriesVar (xs : List ℚ) : ℚ :=
  (xs.map fun x => (x - seriesMean xs) ^ 2).sum / ((xs.length : ℚ) - 1)

/-- pandas `.std()` (ddof = 1): NaN (`none`) on a series with fewer than
two points, otherwise the square root of the sample variance. -/
noncomputable def seriesStd (xs : List ℚ) : Option ℝ :=
  if xs.length < 2 then none else some (Real.sqrt ((seriesVar xs : ℚ) : ℝ))

/-- The named annualization constant of the spec: 252 trading days. -/
def tradingDays : ℕ := 252

/-- Embeds `calculate_theme_volatility`: per theme, the annualized volatility
std(series) * sqrt(252) as an optional real (`none` is a NaN volatility,
which happens when the return series has fewer than two rows).  A theme
with no valid tickers is dropped from the output entirely. -/
noncomputable def calculate_theme_volatility (pt : PriceTable)
    (theme_groups : List (String × List String)) : List (String × Option ℝ) :=
  theme_groups.filterMap fun tg =>
    let vt := validTickers pt.cols tg.2
    if vt = [] then none
    else some (tg.1, (seriesStd (themeSeries pt vt)).map fun s => s * Real.sqrt (tradingDays : ℝ))

/-- IEEE-double-like value: finite, plus or minus infinity, or NaN.
pandas produces `inf` from 1/0.0 and propagates NaN silently, so the
weight arithmetic must carry these. -/
inductive RFloat where
  | fin : ℝ → RFloat
  | inf : RFloat
  | ninf : RFloat
  | nan : RFloat

/-- NaN test. -/
def RFloat.isNan : RFloat → Bool
  | .nan => true
  | _ => false

/-- IEEE reciprocal: 1/0.0 is +inf, 1/inf is 0, NaN propagates. -/
noncomputable def RFloat.recip : RFloat → RFloat
  | .fin x => if x = 0 then .inf else .fin x⁻¹
  | .inf => .fin 0
  | .ninf => .fin 0
  | .nan => .nan

/-- Multiplication by a finite scalar (a conviction multiplier). -/
noncomputable def RFloat.mulQ (m : ℚ) : RFloat → RFloat
  | .fin x => .fin ((m : ℝ) * x)
  | .inf => if 0 < m then .inf else if m < 0 then .ninf else .nan
  | .ninf => if 0 < m then .ninf else if m < 0 then .inf else .nan
  | .nan => .nan

/-- IEEE addition on the extended values. -/
noncomputable def RFloat.add : RFloat → RFloat → RFloat
  | .nan, _ => .nan
  | _, .nan => .nan
  | .inf, .ninf => .nan
  | .ninf, .inf => .nan
  | .inf, _ => .inf
  | _, .inf => .inf
  | .ninf, _ => .ninf
  | _, .ninf => .ninf
  | .fin x, .fin y => .fin (x + y)

/-- pandas `Series.sum()`: NaN entries are skipped (an all-NaN or empty
series sums to 0.0), infinities follow IEEE addition. -/
noncomputable def RFloat.rsum (l : List RFloat) : RFloat :=
  (l.filter fun a => !a.isNan).foldr RFloat.add (.fin 0)

/-- IEEE division on the extended values. -/
noncomputable def RFloat.div : RFloat → RFloat → RFloat
  | .nan, _ => .nan
  | _, .nan => .nan
  | .inf, .inf => .nan
  | .inf, .ninf => .nan
  | .ninf, .inf => .nan
  | .ninf, .ninf => .nan
  | .inf, .fin y => if 0 ≤ y then .inf else .ninf
  | .ninf, .fin y => if 0 ≤ y then .ninf else .inf
  | .fin _, .inf => .fin 0
  | .fin _, .ninf => .fin 0
  | .fin x, .fin y =>
      if y = 0 then (if 0 < x then .inf else if x < 0 then .ninf else .nan)
      else .fin (x / y)

/-- A NaN volatility enters the float pipeline as NaN. -/
noncomputable def RFloat.ofOpt : Option ℝ → RFloat
  | some x => .fin x
  | none => .nan

/-- Step one of the weighting: `inverse_vol = 1 / theme_volatility`. -/
noncomputable def inverseVols (vols : List (String × RFloat)) : List (String × RFloat) :=
  vols.map fun p => (p.1, p.2.recip)

/-- The conviction loop: for each theme in the inverse-vol index whose name
appears in the multiplier dict, multiply its inverse in place. -/
noncomputable def applyConviction (inv : List (String × RFloat)) :
    Option (List (String × ℚ)) → List (String × RFloat)
  | none => inv
  | some m => inv.map fun p =>
      match lookupKey m p.1 with
      | some k => (p.1, RFloat.mulQ k p.2)
      | none => p

/-- Normalization step: `theme_weights = inverse_vol / inverse_vol.sum()`. -/
noncomputable def normalizeWeights (inv : List (String × RFloat)) : List (String × RFloat) :=
  inv.map fun p => (p.1, p.2.div (RFloat.rsum (inv.map Prod.snd)))

/-- The theme-weight portion of `calculate_weights`, from the volatility
series: invert, apply conviction multipliers, normalize. -/
noncomputable def theme_weights_of (vols : List (String × RFloat))
    (mult : Option (List (String × ℚ))) : List (String × RFloat) :=
  normalizeWeights (applyConviction (inverseVols vols) mult)

/-- Python dict write `d[k] = v`: overwrite the value if the key exists
(keeping its position), else append the pair. -/
def upsert (m : List (String × α)) (k : String) (v : α) : List (String × α) :=
  if m.any fun p => p.1 = k then
    m.map fun p => if p.1 = k then (k, v) else p
  else m ++ [(k, v)]

/-- The ticker-weight loop of `calculate_weights`: each theme with a
defined weight assigns weight / len(original ticker list) to every ticker
in its original list, overwriting earlier themes' assignments. -/
noncomputable def tickerWeightsOf (theme_groups : List (String × List String))
    (thw : List (String × RFloat)) : List (String × RFloat) :=
  theme_groups.foldl
    (fun acc tg =>
      match lookupKey thw tg.1 with
      | none => acc
      | some w => tg.2.foldl (fun acc2 t => upsert acc2 t (w.div (.fin (tg.2.length : ℝ)))) acc)
    []

/-- Embeds `calculate_weights`: returns (ticker weights, theme weights, theme
volatility), exactly the source's triple. -/
noncomputable def calculate_weights (theme_groups : List (String × List String))
    (pt : PriceTable) (mult : Option (List (String × ℚ))) :
    List (String × RFloat) × List (String × RFloat) × List (String × Option ℝ) :=
  let vols := calculate_theme_volatility pt theme_groups
  let thw := theme_weights_of (vols.map fun p => (p.1, RFloat.ofOpt p.2)) mult
  (tickerWeightsOf theme_groups thw, thw, vols)

/-- numpy rounding to an integer: round half to even (banker's rounding),
the rule behind pandas `.round()`. -/
def roundHalfEven (q : ℚ) : ℤ :=
  let f := ⌊q⌋
  let r := q - (f : ℚ)
  if r < 1 / 2 then f
  else if 1 / 2 < r then f + 1
  else if f % 2 = 0 then f else f + 1

/-- pandas `.round(2)`: round half to even at two decimal places. -/
def round2 (q : ℚ) : ℚ := (roundHalfEven (q * 100) : ℚ) / 100

/-- One row of the allocation table. -/
structure AllocRow where
  ticker : String
  weightPct : ℚ
  latestPrice : ℚ
  dollar : ℚ
  shares : ℤ
deriving DecidableEq, Repr

/-- The two failure modes `calculate_allocation` actually has:
`iloc[-1]` on an empty frame raises an index error, and
`.astype(int)` raises on a NaN or infinite shares column. -/
inductive AllocError where
  | indexError : AllocError
  | nonFiniteToInt : AllocError
deriving DecidableEq, Repr

/-- Build one allocation row from a ticker-weight pair and the latest
price row.  `none` when the shares cell would be non-finite: the ticker is
absent from the latest row (NaN) or its rounded price is zero (division
yields inf or NaN). -/
def mkRow (p : String × ℚ) (last : Row) (pv : ℚ) : Option AllocRow :=
  match (lookupKey last p.1).map round2 with
  | none => none
  | some lp =>
      if lp = 0 then none
      else some
        { ticker := p.1
          weightPct := round2 (p.2 * 100)
          latestPrice := lp
          dollar := round2 (p.2 * pv)
          shares := roundHalfEven (round2 (p.2 * pv) / lp) }

/-- Descending insertion by rounded weight percent: an incoming row goes
in front of the first row whose weight does not exceed it.  This is one
concrete comparison sort; pandas promises only the ordering on the weight
column, so no theorem may rely on where this model places tied rows in
general. -/
def insertDesc (a : AllocRow) : List AllocRow → List AllocRow
  | [] => [a]
  | b :: bs => if b.weightPct ≤ a.weightPct then a :: b :: bs else b :: insertDesc a bs

/-- One deterministic comparison sort standing in for
`allocation.sort_values(ascending=False)` on the weight column.  It agrees
with pandas on everything the code guarantees - weight-descending order
over a permutation of the rows - and coincides with numpy's insertion-sort
path on frames under its 16-element cutoff (every concrete table in this
file); tie order on larger frames is unspecified by the quicksort the
code requests, and no theorem here asserts it. -/
def sortRows (l : List AllocRow) : List AllocRow :=
  l.foldr insertDesc []

/-- Embeds `calculate_allocation`: latest prices from the final dated row, then
per ticker the rounded weight percent, rounded latest price, rounded
dollar allocation and integer share count, sorted by weight descending.
Fails when the table has no rows, or when any ticker's shares cell is
non-finite at the `.astype(int)` step. -/
def calculate_allocation (ticker_weights : List (String × ℚ)) (pt : PriceTable)
    (portfolio_value : ℚ) : Except AllocError (List AllocRow) :=
  match pt.rows.getLast? with
  | none => .error .indexError
  | some last =>
      let rows := ticker_weights.map fun p => mkRow p last portfolio_value
      if rows.all Option.isSome then .ok (sortRows (rows.filterMap id))
      else .error .nonFiniteToInt

/-! ### Concrete tables used as test inputs -/

/-- Three dates, ticker B missing its first price. -/
def exC6 : PriceTable :=
  { cols := ["A", "B"]
    rows := [[("A", 1)], [("A", 2), ("B", 2)], [("A", 4), ("B", 4)]] }

/-- A single dated row. -/
def exC7 : PriceTable := { cols := ["A"], rows := [[("A", 1)]] }

/-- One theme holding the single ticker A. -/
def groupsA : List (String × List String) := [("T", ["A"])]

/-- A one-row price table whose only ticker is A at price 1000. -/
def exC4 : PriceTable := { cols := ["A"], rows := [[("A", 1000)]] }

/-- A one-row price table quoting A and B both at price 1. -/
def exC9 : PriceTable := { cols := ["A", "B"], rows := [[("A", 1), ("B", 1)]] }

/-! ### C6: which rows survive the returns computation -/

/-- C6 counterexample.  On `exC6` the return row for the second date has a
present value for ticker A (and only B absent), yet the returned table
holds the final row alone: a row is dropped as soon as one ticker's return
is absent, not only when all are. -/
theorem c6_counterexample_partial_row_dropped :
    computeReturns exC6 = [[("A", 1), ("B", 1)]] ∧
    pctCell [("A", 1)] [("A", 2), ("B", 2)] "A" = some 1 := by
  constructor <;> with_unfolding_all rfl

/-- C6 amended: per ticker, the return is price[t]/price[t-1] - 1, and a
date's row is kept exactly when every column's return is present (pandas
`dropna()` defaults to dropping a row with any absent cell). -/
theorem c6_returns_semantics (pt : PriceTable) :
    computeReturns pt =
      ((pt.rows.zip (pt.rows.drop 1)).filter fun pc => rowComplete pt.cols pc.1 pc.2).map
        (fun pc => returnRow pt.cols pc.1 pc.2) ∧
    ∀ prev cur c a b, lookupKey prev c = some b → lookupKey cur c = some a →
      pctCell prev cur c = some (a / b - 1) := by
  constructor
  · unfold computeReturns
    induction pt.rows.zip (pt.rows.drop 1) with
    | nil => rfl
    | cons x xs ih =>
        by_cases h : rowComplete pt.cols x.1 x.2
        · simp [List.filterMap_cons, List.filter_cons, h, ih]
        · simp [List.filterMap_cons, List.filter_cons, h, ih]
  · intro prev cur c a b hb ha
    unfold pctCell
    rw [hb, ha]

/-- Witness for the amended C6, at a concrete two-row table. -/
theorem c6_returns_semantics_witness :
    (lookupKey [("A", (1 : ℚ))] "A" = some 1 ∧ lookupKey [("A", (2 : ℚ))] "A" = some 2) ∧
    pctCell [("A", 1)] [("A", 2)] "A" = some (2 / 1 - 1) := by
  refine ⟨⟨rfl, rfl⟩, ?_⟩
  exact (c6_returns_semantics ⟨["A"], [[("A", 1)], [("A", 2)]]⟩).2 _ _ ("A") 2 1 rfl rfl

/-! ### C7: fewer than two dated rows -/

/-- C7 counterexample.  On a one-row table the code raises nothing: the
volatility comes back as a NaN entry for the surviving theme and the theme
weight is NaN, instead of the `InsufficientDataError` the claim expects. -/
theorem c7_counterexample_no_failure :
    calculate_theme_volatility exC7 groupsA = [("T", none)] ∧
    (calculate_weights groupsA exC7 none).2.1 = [("T", RFloat.nan)] := by
  constructor <;> rfl

/-- C7 amended: with fewer than two dated rows the return table is empty
and every surviving theme's volatility is NaN (`none`); no error is
raised anywhere. -/
theorem c7_short_table_nan (pt : PriceTable) (theme_groups : List (String × List String))
    (h : pt.rows.length < 2) :
    computeReturns pt = [] ∧
    ∀ p ∈ calculate_theme_volatility pt theme_groups, p.2 = none := by
  have hz : pt.rows.zip (pt.rows.drop 1) = [] := by
    match hr : pt.rows with
    | [] => rfl
    | [r] => rfl
    | r₁ :: r₂ :: rest =>
        rw [hr] at h
        simp only [List.length_cons] at h
        omega
  have hret : computeReturns pt = [] := by
    unfold computeReturns
    rw [hz]
    rfl
  refine ⟨hret, ?_⟩
  intro p hp
  unfold calculate_theme_volatility at hp
  obtain ⟨tg, _, hmk⟩ := List.mem_filterMap.mp hp
  dsimp only at hmk
  by_cases hv : validTickers pt.cols tg.2 = []
  · rw [if_pos hv] at hmk
    exact absurd hmk (by simp)
  · rw [if_neg hv] at hmk
    have hstd : seriesStd (themeSeries pt (validTickers pt.cols tg.2)) = none := by
      have hser : themeSeries pt (validTickers pt.cols tg.2) = [] := by
        unfold themeSeries
        rw [hret]
        rfl
      rw [hser]
      unfold seriesStd
      simp
    have h2 := Option.some.inj hmk
    rw [← h2]
    show Option.map _ (seriesStd _) = none
    rw [hstd]
    rfl

/-- Witness for the amended C7 at the one-row table. -/
theorem c7_short_table_nan_witness :
    exC7.rows.length < 2 ∧
    (computeReturns exC7 = [] ∧ ∀ p ∈ calculate_theme_volatility exC7 groupsA, p.2 = none) :=
  ⟨by decide, c7_short_table_nan exC7 groupsA (by decide)⟩

/-! ### Sorting and membership lemmas for the allocation table -/

theorem insertDesc_cons (a b : AllocRow) (bs : List AllocRow) :
    insertDesc a (b :: bs) =
      if b.weightPct ≤ a.weightPct then a :: b :: bs else b :: insertDesc a bs := rfl

theorem mem_insertDesc {a b : AllocRow} {l : List AllocRow} :
    a ∈ insertDesc b l ↔ a = b ∨ a ∈ l := by
  induction l with
  | nil => simp [insertDesc]
  | cons c cs ih =>
      by_cases h : c.weightPct ≤ b.weightPct
      · simp [insertDesc_cons, h]
      · simp only [insertDesc_cons, if_neg h, List.mem_cons, ih]
        tauto

theorem sortRows_cons (a : AllocRow) (l : List AllocRow) :
    sortRows (a :: l) = insertDesc a (sortRows l) := rfl

theorem mem_sortRows {a : AllocRow} {l : List AllocRow} : a ∈ sortRows l ↔ a ∈ l := by
  induction l with
  | nil => simp [sortRows]
  | cons b bs ih => rw [sortRows_cons, mem_insertDesc, ih, List.mem_cons]

theorem pairwise_insertDesc (a : AllocRow) (l : List AllocRow)
    (h : l.Pairwise fun x y => y.weightPct ≤ x.weightPct) :
    (insertDesc a l).Pairwise fun x y => y.weightPct ≤ x.weightPct := by
  induction l with
  | nil => simp [insertDesc]
  | cons b bs ih =>
      rw [List.pairwise_cons] at h
      by_cases hba : b.weightPct ≤ a.weightPct
      · rw [insertDesc_cons, if_pos hba, List.pairwise_cons]
        refine ⟨?_, List.pairwise_cons.mpr h⟩
        intro x hx
        rcases List.mem_cons.mp hx with hxb | hxbs
        · rw [hxb]; exact hba
        · exact le_trans (h.1 x hxbs) hba
      · rw [insertDesc_cons, if_neg hba, List.pairwise_cons]
        refine ⟨?_, ih h.2⟩
        intro x hx
        rcases mem_insertDesc.mp hx with hxa | hxbs
        · rw [hxa]; exact le_of_lt (lt_of_not_ge hba)
        · exact h.1 x hxbs

theorem sortRows_sorted (l : List AllocRow) :
    (sortRows l).Pairwise fun x y => y.weightPct ≤ x.weightPct := by
  induction l with
  | nil => simp [sortRows]
  | cons b bs ih => rw [sortRows_cons]; exact pairwise_insertDesc b (sortRows bs) ih

theorem perm_insertDesc (a : AllocRow) (l : List AllocRow) :
    List.Perm (insertDesc a l) (a :: l) := by
  induction l with
  | nil => exact List.Perm.refl _
  | cons b bs ih =>
      by_cases hba : b.weightPct ≤ a.weightPct
      · rw [insertDesc_cons, if_pos hba]
      · rw [insertDesc_cons, if_neg hba]
        exact List.Perm.trans (List.Perm.cons b ih) (List.Perm.swap a b bs)

theorem sortRows_perm (l : List AllocRow) : List.Perm (sortRows l) l := by
  induction l with
  | nil => exact List.Perm.refl _
  | cons b bs ih =>
      rw [sortRows_cons]
      exact List.Perm.trans (perm_insertDesc b (sortRows bs)) (List.Perm.cons b ih)

/-! ### C4: share rounding -/

/-- Modelled from the spec: round half up, the rounding rule §4.5
prescribes for the shares column. -/
def roundHalfUpSpec (q : ℚ) : ℤ := ⌊q + 1 / 2⌋

/-- The allocation row the code produces on `exC4` with weight 1/4 of
10000 dollars: 2.5 shares round to 2. -/
def rowC4 : AllocRow :=
  { ticker := "A", weightPct := 25, latestPrice := 1000, dollar := 2500, shares := 2 }

/-- C4 counterexample.  Weight 1/4 of 10000 dollars at price 1000 gives
2500 / 1000 = 2.5 shares; the code's numpy rounding returns 2 (half to
even), while the claimed round-half-up gives 3. -/
theorem c4_counterexample_half_rounds_down :
    calculate_allocation [("A", 1 / 4)] exC4 10000 = .ok [rowC4] ∧
    rowC4.shares = 2 ∧ roundHalfUpSpec (2500 / 1000) = 3 := by
  refine ⟨?_, ?_, ?_⟩ <;> with_unfolding_all rfl

/-- C4 amended: every returned row carries dollar = round2(weight * value)
and shares = round-half-even(dollar / latest price) - banker's rounding,
not round-half-up. -/
theorem c4_shares_half_even (tw : List (String × ℚ)) (pt : PriceTable) (pv : ℚ)
    (rows : List AllocRow) (hok : calculate_allocation tw pt pv = .ok rows) :
    ∀ r ∈ rows, ∃ w, (r.ticker, w) ∈ tw ∧ r.weightPct = round2 (w * 100) ∧
      r.dollar = round2 (w * pv) ∧ r.shares = roundHalfEven (r.dollar / r.latestPrice) := by
  match hl : pt.rows.getLast? with
  | none =>
      simp only [calculate_allocation, hl] at hok
      exact absurd hok (by simp)
  | some last =>
      simp only [calculate_allocation, hl] at hok
      by_cases hall : (tw.map fun p => mkRow p last pv).all Option.isSome
      case neg => rw [if_neg hall] at hok; exact absurd hok (by simp)
      case pos =>
        rw [if_pos hall] at hok
        obtain rfl := Except.ok.inj hok
        intro r hr
        have hr2 : r ∈ (tw.map fun p => mkRow p last pv).filterMap id := mem_sortRows.mp hr
        rw [List.filterMap_map] at hr2
        obtain ⟨p, hp, hmk⟩ := List.mem_filterMap.mp hr2
        have hmk2 : mkRow p last pv = some r := hmk
        match hlp : (lookupKey last p.1).map round2 with
        | none => simp [mkRow, hlp] at hmk2
        | some lp =>
            simp only [mkRow, hlp] at hmk2
            by_cases hz : lp = 0
            · rw [if_pos hz] at hmk2; exact absurd hmk2 (by simp)
            · rw [if_neg hz] at hmk2
              obtain rfl := Option.some.inj hmk2
              exact ⟨p.2, hp, rfl, rfl, rfl⟩

/-- Witness for the amended C4, at the concrete half-share table. -/
theorem c4_shares_half_even_witness :
    (calculate_allocation [("A", 1 / 4)] exC4 10000 = .ok [rowC4]) ∧
    ∀ r ∈ [rowC4], ∃ w, (r.ticker, w) ∈ [("A", (1 : ℚ) / 4)] ∧
      r.weightPct = round2 (w * 100) ∧ r.dollar = round2 (w * 10000) ∧
      r.shares = roundHalfEven (r.dollar / r.latestPrice) :=
  ⟨by with_unfolding_all rfl,
   c4_shares_half_even [("A", 1 / 4)] exC4 10000 [rowC4] (by with_unfolding_all rfl)⟩

/-! ### C8: ticker with a weight but no latest price -/

/-- C8 counterexample.  Ticker B has a weight but no price in the latest
row of `exC4`.  The code does fail, but with the table-wide integer
conversion error of `.astype(int)` on a NaN shares column; the code has
no per-ticker MissingPriceError check anywhere. -/
theorem c8_counterexample_generic_error :
    calculate_allocation [("A", 1 / 2), ("B", 1 / 2)] exC4 100 =
      .error .nonFiniteToInt := by
  with_unfolding_all rfl

/-- C8 amended: when any weighted ticker is absent from the last dated
row, `calculate_allocation` fails with the whole-table integer-conversion
error (the pandas astype ValueError on non-finite values), producing no
rows at all. -/
theorem c8_missing_price_aborts (tw : List (String × ℚ)) (pt : PriceTable) (pv : ℚ)
    (t : String) (last : Row) (hlast : pt.rows.getLast? = some last)
    (ht : t ∈ keysOf tw) (hmiss : lookupKey last t = none) :
    calculate_allocation tw pt pv = .error .nonFiniteToInt := by
  obtain ⟨p, hp, hp1⟩ := List.mem_map.mp ht
  have hnone : mkRow p last pv = none := by
    simp only [mkRow, hp1, hmiss]
    rfl
  have hall : ¬ (tw.map fun q => mkRow q last pv).all Option.isSome = true := by
    intro hall
    have hmem : mkRow p last pv ∈ tw.map fun q => mkRow q last pv :=
      List.mem_map.mpr ⟨p, hp, rfl⟩
    have := List.all_eq_true.mp hall _ hmem
    rw [hnone] at this
    simp at this
  simp only [calculate_allocation, hlast]
  rw [if_neg hall]

/-- Witness for the amended C8. -/
theorem c8_missing_price_aborts_witness :
    (exC4.rows.getLast? = some [("A", 1000)]) ∧
    ("B" ∈ keysOf [("A", (1 : ℚ) / 2), ("B", (1 : ℚ) / 2)]) ∧
    (lookupKey [("A", (1000 : ℚ))] "B" = none) ∧
    calculate_allocation [("A", 1 / 2), ("B", 1 / 2)] exC4 100 =
      .error .nonFiniteToInt :=
  ⟨rfl, by simp [keysOf], rfl,
   c8_missing_price_aborts [("A", 1 / 2), ("B", 1 / 2)] exC4 100 ("B") [("A", 1000)]
     rfl (by simp [keysOf]) rfl⟩

/-! ### C9: ordering of the allocation table -/

/-- The first output row on `exC9` with equal weights: ticker B. -/
def rowC9B : AllocRow :=
  { ticker := "B", weightPct := 50, latestPrice := 1, dollar := 50, shares := 50 }

/-- The second output row on `exC9` with equal weights: ticker A. -/
def rowC9A : AllocRow :=
  { ticker := "A", weightPct := 50, latestPrice := 1, dollar := 50, shares := 50 }

/-- C9 counterexample.  On this two-row frame (small enough that pandas'
sort path is deterministic) the equal-weight rows come back B before A -
the ticker-weight mapping's order, not the ascending ticker order the
claim states: the code sorts only on the weight column and has no
ticker tiebreak. -/
theorem c9_counterexample_tie_order :
    calculate_allocation [("B", 1 / 2), ("A", 1 / 2)] exC9 100 =
      .ok [rowC9B, rowC9A] ∧ rowC9B.weightPct = rowC9A.weightPct := by
  constructor <;> with_unfolding_all rfl

/-- C9 amended: the output is sorted by weight percent descending and is
a permutation of the per-ticker rows; the code imposes no tie rule among
equal weight percents (in particular not ascending ticker order - the
requested numpy quicksort leaves tie order unspecified on larger
frames). -/
theorem c9_sorted_desc_perm (tw : List (String × ℚ)) (pt : PriceTable) (pv : ℚ)
    (rows : List AllocRow) (last : Row) (hlast : pt.rows.getLast? = some last)
    (hok : calculate_allocation tw pt pv = .ok rows) :
    rows.Pairwise (fun a b => b.weightPct ≤ a.weightPct) ∧
    List.Perm rows (tw.filterMap fun p => mkRow p last pv) := by
  simp only [calculate_allocation, hlast] at hok
  by_cases hall : (tw.map fun p => mkRow p last pv).all Option.isSome
  case neg => rw [if_neg hall] at hok; exact absurd hok (by simp)
  case pos =>
    rw [if_pos hall] at hok
    obtain rfl := Except.ok.inj hok
    refine ⟨sortRows_sorted _, ?_⟩
    have h1 : (tw.map fun p => mkRow p last pv).filterMap id =
        tw.filterMap fun p => mkRow p last pv := by
      rw [List.filterMap_map]
      rfl
    rw [h1]
    exact sortRows_perm _

/-- Witness for the amended C9, at the equal-weight table. -/
theorem c9_sorted_desc_perm_witness :
    (exC9.rows.getLast? = some [("A", 1), ("B", 1)]) ∧
    (calculate_allocation [("B", 1 / 2), ("A", 1 / 2)] exC9 100 = .ok [rowC9B, rowC9A]) ∧
    ([rowC9B, rowC9A].Pairwise (fun a b => b.weightPct ≤ a.weightPct) ∧
     List.Perm [rowC9B, rowC9A]
       ([("B", (1 : ℚ) / 2), ("A", (1 : ℚ) / 2)].filterMap fun p =>
         mkRow p [("A", 1), ("B", 1)] 100)) :=
  ⟨rfl, by with_unfolding_all rfl,
   c9_sorted_desc_perm [("B", 1 / 2), ("A", 1 / 2)] exC9 100 [rowC9B, rowC9A]
     [("A", 1), ("B", 1)] rfl (by with_unfolding_all rfl)⟩

/-! ### RFloat computation lemmas -/

theorem RFloat.add_fin_fin (x y : ℝ) : RFloat.add (.fin x) (.fin y) = .fin (x + y) := rfl

theorem RFloat.mulQ_fin (k : ℚ) (x : ℝ) : RFloat.mulQ k (.fin x) = .fin ((k : ℝ) * x) := rfl

theorem RFloat.recip_fin {x : ℝ} (hx : x ≠ 0) : RFloat.recip (.fin x) = .fin x⁻¹ := by
  simp [RFloat.recip, hx]

theorem RFloat.recip_fin_zero : RFloat.recip (.fin 0) = .inf := by
  simp [RFloat.recip]

theorem RFloat.div_fin_fin (x : ℝ) {y : ℝ} (hy : y ≠ 0) :
    RFloat.div (.fin x) (.fin y) = .fin (x / y) := by
  simp [RFloat.div, hy]

theorem RFloat.div_fin_inf (x : ℝ) : RFloat.div (.fin x) .inf = .fin 0 := rfl

theorem RFloat.div_inf_inf : RFloat.div .inf .inf = .nan := rfl

theorem foldr_add_map_fin (l : List ℝ) :
    (l.map RFloat.fin).foldr RFloat.add (.fin 0) = .fin l.sum := by
  induction l with
  | nil => rfl
  | cons x xs ih =>
      rw [List.map_cons, List.foldr_cons, ih, RFloat.add_fin_fin, List.sum_cons]

theorem rsum_map_fin (l : List ℝ) : RFloat.rsum (l.map RFloat.fin) = .fin l.sum := by
  unfold RFloat.rsum
  have hf : (l.map RFloat.fin).filter (fun a => !a.isNan) = l.map RFloat.fin :=
    List.filter_eq_self.mpr (by
      intro a ha
      obtain ⟨x, _, rfl⟩ := List.mem_map.mp ha
      rfl)
  rw [hf, foldr_add_map_fin]

theorem foldr_add_of_inf (l : List RFloat)
    (h : ∀ a ∈ l, (∃ x, a = .fin x) ∨ a = .inf) (hinf : RFloat.inf ∈ l) :
    l.foldr RFloat.add (.fin 0) = .inf := by
  have aux : ∀ (l : List RFloat), (∀ a ∈ l, (∃ x, a = .fin x) ∨ a = .inf) →
      (∃ x, l.foldr RFloat.add (.fin 0) = .fin x) ∨ l.foldr RFloat.add (.fin 0) = .inf := by
    intro l hl
    induction l with
    | nil => exact .inl ⟨0, rfl⟩
    | cons a as ih =>
        rw [List.foldr_cons]
        rcases ih (fun b hb => hl b (List.mem_cons_of_mem a hb)) with ⟨x, hx⟩ | hx <;>
          rcases hl a (List.mem_cons_self a as) with ⟨y, hy⟩ | hy <;>
            rw [hx, hy]
        · exact .inl ⟨y + x, rfl⟩
        · exact .inr rfl
        · exact .inr rfl
        · exact .inr rfl
  induction l with
  | nil => cases hinf
  | cons a as ih =>
      rw [List.foldr_cons]
      rcases List.mem_cons.mp hinf with hai | hmem
      · rcases aux as (fun b hb => h b (List.mem_cons_of_mem a hb)) with ⟨x, hx⟩ | hx <;>
          rw [← hai, hx] <;> rfl
      · rw [ih (fun b hb => h b (List.mem_cons_of_mem a hb)) hmem]
        rcases h a (List.mem_cons_self a as) with ⟨y, hy⟩ | hy <;> rw [hy] <;> rfl

theorem rsum_of_inf (l : List RFloat)
    (h : ∀ a ∈ l, (∃ x, a = .fin x) ∨ a = .inf) (hinf : RFloat.inf ∈ l) :
    RFloat.rsum l = .inf := by
  unfold RFloat.rsum
  have hf : l.filter (fun a => !a.isNan) = l :=
    List.filter_eq_self.mpr (by
      intro a ha
      rcases h a ha with ⟨x, rfl⟩ | rfl <;> rfl)
  rw [hf]
  exact foldr_add_of_inf l h hinf

/-! ### Association-list lemmas -/

theorem lookupKey_map_of_nodup {α : Type} {β : Type} (l : List (String × α))
    (g : String × α → β) (hnd : (keysOf l).Nodup) {p : String × α} (hp : p ∈ l) :
    lookupKey (l.map fun q => (q.1, g q)) p.1 = some (g p) := by
  induction l with
  | nil => cases hp
  | cons q r ih =>
      simp only [keysOf, List.map_cons, List.nodup_cons] at hnd
      rcases List.mem_cons.mp hp with rfl | hpr
      · simp [lookupKey]
      · have hne : q.1 ≠ p.1 := by
          intro he
          exact hnd.1 (he ▸ List.mem_map.mpr ⟨p, hpr, rfl⟩)
        rw [List.map_cons]
        show (if q.1 = p.1 then some (g q) else lookupKey (r.map fun q => (q.1, g q)) p.1) = _
        rw [if_neg hne]
        exact ih hnd.2 hpr

theorem mem_unique_of_nodup_keys {α : Type} {l : List (String × α)}
    (hnd : (keysOf l).Nodup) {p q : String × α} (hp : p ∈ l) (hq : q ∈ l)
    (hk : p.1 = q.1) : p = q := by
  induction l with
  | nil => cases hp
  | cons a r ih =>
      simp only [keysOf, List.map_cons, List.nodup_cons] at hnd
      rcases List.mem_cons.mp hp with rfl | hpr <;> rcases List.mem_cons.mp hq with rfl | hqr
      · rfl
      · exact absurd (hk ▸ List.mem_map.mpr ⟨q, hqr, rfl⟩) hnd.1
      · exact absurd (hk ▸ List.mem_map.mpr ⟨p, hpr, rfl⟩ : q.1 ∈ _) hnd.1
      · exact ih hnd.2 hpr hqr

/-! ### The theme-weight normalization on finite positive inputs -/

/-- The conviction multiplier actually applied to a theme: the dict value
when present, 1 otherwise. -/
def effMult (mult : Option (List (String × ℚ))) (θ : String) : ℚ :=
  match mult with
  | none => 1
  | some m => (lookupKey m θ).getD 1

/-- A theme's effective inverse term after the conviction loop:
multiplier times reciprocal volatility. -/
noncomputable def effTerm (mult : Option (List (String × ℚ))) (p : String × ℝ) : ℝ :=
  ((effMult mult p.1 : ℚ) : ℝ) * p.2⁻¹

theorem inverseVols_map_fin (vs : List (String × ℝ)) (hv : ∀ p ∈ vs, p.2 ≠ 0) :
    inverseVols (vs.map fun p => (p.1, RFloat.fin p.2)) =
      vs.map fun p => (p.1, RFloat.fin p.2⁻¹) := by
  unfold inverseVols
  rw [List.map_map]
  apply List.map_congr_left
  intro p hp
  show (p.1, RFloat.recip (.fin p.2)) = (p.1, RFloat.fin p.2⁻¹)
  rw [RFloat.recip_fin (hv p hp)]

theorem applyConviction_map_fin (vs : List (String × ℝ))
    (mult : Option (List (String × ℚ))) :
    applyConviction (vs.map fun p => (p.1, RFloat.fin p.2⁻¹)) mult =
      vs.map fun p => (p.1, RFloat.fin (effTerm mult p)) := by
  cases mult with
  | none =>
      simp only [applyConviction]
      apply List.map_congr_left
      intro p _
      simp [effTerm, effMult]
  | some m =>
      simp only [applyConviction]
      rw [List.map_map]
      apply List.map_congr_left
      intro p _
      dsimp only [Function.comp]
      cases hl : lookupKey m p.1 with
      | some k => simp [hl, RFloat.mulQ_fin, effTerm, effMult]
      | none => simp [hl, effTerm, effMult]

theorem theme_weights_of_fin (vs : List (String × ℝ)) (mult : Option (List (String × ℚ)))
    (hv : ∀ p ∈ vs, p.2 ≠ 0) (hS : (vs.map (effTerm mult)).sum ≠ 0) :
    theme_weights_of (vs.map fun p => (p.1, RFloat.fin p.2)) mult =
      vs.map fun p => (p.1, RFloat.fin (effTerm mult p / (vs.map (effTerm mult)).sum)) := by
  unfold theme_weights_of
  rw [inverseVols_map_fin vs hv, applyConviction_map_fin]
  unfold normalizeWeights
  have hsnd : (vs.map fun p => (p.1, RFloat.fin (effTerm mult p))).map Prod.snd =
      (vs.map (effTerm mult)).map RFloat.fin := by
    rw [List.map_map, List.map_map]
    rfl
  rw [hsnd, rsum_map_fin, List.map_map]
  apply List.map_congr_left
  intro p _
  show (p.1, RFloat.div (.fin (effTerm mult p)) (.fin (vs.map (effTerm mult)).sum)) = _
  rw [RFloat.div_fin_fin _ hS]

theorem sum_map_div_const (l : List ℝ) (c : ℝ) :
    (l.map fun x => x / c).sum = l.sum / c := by
  induction l with
  | nil => simp
  | cons x xs ih => rw [List.map_cons, List.sum_cons, List.sum_cons, ih, add_div]

/-! ### C1: surviving theme weights sum to one -/

/-- C1: when at least one theme survives (non-empty valid tickers) and
every surviving theme's volatility is finite and strictly positive, the
theme weights of `calculate_weights` (no conviction multipliers) are
finite, keyed exactly by the surviving themes, and sum to exactly 1.
Dropped themes appear nowhere and contribute nothing to the denominator. -/
theorem c1_theme_weights_sum_one (theme_groups : List (String × List String))
    (pt : PriceTable)
    (hsurv : ∃ tg ∈ theme_groups, validTickers pt.cols tg.2 ≠ [])
    (hpos : ∀ p ∈ calculate_theme_volatility pt theme_groups, ∃ v, p.2 = some v ∧ 0 < v) :
    keysOf ((calculate_weights theme_groups pt none).2.1) =
      keysOf (calculate_theme_volatility pt theme_groups) ∧
    ∃ ws : List ℝ,
      ((calculate_weights theme_groups pt none).2.1).map Prod.snd = ws.map RFloat.fin ∧
      ws.sum = 1 := by
  have hvne : calculate_theme_volatility pt theme_groups ≠ [] := by
    obtain ⟨tg, htg, hne⟩ := hsurv
    have hmem : (tg.1, (seriesStd (themeSeries pt (validTickers pt.cols tg.2))).map
        fun s => s * Real.sqrt ((tradingDays : ℕ) : ℝ)) ∈
          calculate_theme_volatility pt theme_groups := by
      unfold calculate_theme_volatility
      exact List.mem_filterMap.mpr ⟨tg, htg, by dsimp only; rw [if_neg hne]⟩
    intro h0
    rw [h0] at hmem
    cases hmem
  set vols := calculate_theme_volatility pt theme_groups with hvols
  obtain ⟨vs, hvs⟩ : ∃ vs : List (String × ℝ), vs = vols.map fun p => (p.1, p.2.getD 0) :=
    ⟨_, rfl⟩
  have hvols_eq : vols.map (fun p => (p.1, RFloat.ofOpt p.2)) =
      vs.map fun p => (p.1, RFloat.fin p.2) := by
    rw [hvs, List.map_map]
    apply List.map_congr_left
    intro p hp
    obtain ⟨v, hv2, _⟩ := hpos p hp
    simp [Function.comp, hv2, RFloat.ofOpt]
  have hvpos : ∀ q ∈ vs, 0 < q.2 := by
    intro q hq
    rw [hvs] at hq
    obtain ⟨p, hp, rfl⟩ := List.mem_map.mp hq
    obtain ⟨v, hv2, hvp⟩ := hpos p hp
    simpa [hv2] using hvp
  have hterm : ∀ q ∈ vs, 0 < effTerm none q := by
    intro q hq
    unfold effTerm effMult
    simpa using inv_pos.mpr (hvpos q hq)
  have hvsne : vs ≠ [] := by
    rw [hvs]
    simpa using hvne
  have hS : 0 < (vs.map (effTerm none)).sum := by
    refine List.sum_pos _ ?_ ?_
    · intro x hx
      obtain ⟨q, hq, rfl⟩ := List.mem_map.mp hx
      exact hterm q hq
    · simpa using hvsne
  have hw : (calculate_weights theme_groups pt none).2.1 =
      vs.map fun q => (q.1, RFloat.fin (effTerm none q / (vs.map (effTerm none)).sum)) := by
    show theme_weights_of (vols.map fun p => (p.1, RFloat.ofOpt p.2)) none = _
    rw [hvols_eq]
    exact theme_weights_of_fin vs none (fun q hq => ne_of_gt (hvpos q hq)) (ne_of_gt hS)
  constructor
  · rw [hw]
    unfold keysOf
    rw [List.map_map, hvs, List.map_map]
    rfl
  · refine ⟨vs.map fun q => effTerm none q / (vs.map (effTerm none)).sum, ?_, ?_⟩
    · rw [hw, List.map_map, List.map_map]
      rfl
    · have hcomp : (vs.map fun q => effTerm none q / (vs.map (effTerm none)).sum) =
          (vs.map (effTerm none)).map fun x => x / (vs.map (effTerm none)).sum := by
        rw [List.map_map]
        rfl
      rw [hcomp, sum_map_div_const, div_self (ne_of_gt hS)]

/-- Three dates of prices for ticker A giving returns 1 and 2, hence a
sample variance of one half. -/
def exC1 : PriceTable := { cols := ["A"], rows := [[("A", 1)], [("A", 2)], [("A", 6)]] }

/-- Witness for C1 at the three-row single-theme table. -/
theorem c1_theme_weights_sum_one_witness :
    (∃ tg ∈ groupsA, validTickers exC1.cols tg.2 ≠ []) ∧
    (∀ p ∈ calculate_theme_volatility exC1 groupsA, ∃ v, p.2 = some v ∧ 0 < v) ∧
    (keysOf ((calculate_weights groupsA exC1 none).2.1) =
        keysOf (calculate_theme_volatility exC1 groupsA) ∧
      ∃ ws : List ℝ,
        ((calculate_weights groupsA exC1 none).2.1).map Prod.snd = ws.map RFloat.fin ∧
        ws.sum = 1) := by
  have e : calculate_theme_volatility exC1 groupsA =
      [("T", some (Real.sqrt ((1 / 2 : ℚ) : ℝ) * Real.sqrt ((tradingDays : ℕ) : ℝ)))] := by
    with_unfolding_all rfl
  have h1 : ∃ tg ∈ groupsA, validTickers exC1.cols tg.2 ≠ [] :=
    ⟨("T", ["A"]), by decide, by decide⟩
  have h2 : ∀ p ∈ calculate_theme_volatility exC1 groupsA, ∃ v, p.2 = some v ∧ 0 < v := by
    rw [e]
    intro p hp
    rcases List.mem_cons.mp hp with rfl | h0
    · refine ⟨Real.sqrt ((1 / 2 : ℚ) : ℝ) * Real.sqrt ((tradingDays : ℕ) : ℝ), rfl, ?_⟩
      refine mul_pos (Real.sqrt_pos.mpr ?_) (Real.sqrt_pos.mpr ?_)
      · norm_num
      · norm_num [tradingDays]
    · cases h0
  exact ⟨h1, h2, c1_theme_weights_sum_one groupsA exC1 h1 h2⟩

/-! ### C5: a theme with volatility exactly zero -/

/-- Three constant prices: returns 0 and 0, volatility exactly 0. -/
def exC5 : PriceTable := { cols := ["A"], rows := [[("A", 1)], [("A", 1)], [("A", 1)]] }

/-- C5 counterexample.  With a zero-volatility theme `calculate_weights`
raises nothing: it returns a value in which the theme's weight is NaN
(inf divided by inf), instead of the claimed DivisionByZeroError. -/
theorem c5_counterexample_no_error :
    lookupKey ((calculate_weights groupsA exC5 none).2.1) "T" = some RFloat.nan := by
  have e : (calculate_weights groupsA exC5 none).2.1 =
      [("T", RFloat.div (RFloat.recip (.fin (Real.sqrt ((0 : ℚ) : ℝ) *
        Real.sqrt ((tradingDays : ℕ) : ℝ))))
        (RFloat.rsum [RFloat.recip (.fin (Real.sqrt ((0 : ℚ) : ℝ) *
          Real.sqrt ((tradingDays : ℕ) : ℝ)))]))] := by
    with_unfolding_all rfl
  have h0 : Real.sqrt ((0 : ℚ) : ℝ) * Real.sqrt ((tradingDays : ℕ) : ℝ) = 0 := by
    simp [Real.sqrt_zero]
  rw [e, h0]
  show (if ("T" : String) = "T" then some (RFloat.div (RFloat.recip (.fin 0))
    (RFloat.rsum [RFloat.recip (.fin 0)])) else none) = some RFloat.nan
  rw [if_pos rfl, RFloat.recip_fin_zero]
  rfl

/-- C5 amended: a theme with volatility exactly 0 makes `calculate_weights`
return (not raise): the zero-volatility theme's inverse is +inf, its
normalized weight is NaN, and every other surviving theme's weight
collapses to exactly 0. -/
theorem c5_zero_vol_inf_weight (pt : PriceTable) (theme_groups : List (String × List String))
    (θ : String)
    (hnd : (keysOf (calculate_theme_volatility pt theme_groups)).Nodup)
    (hθ : (θ, some (0 : ℝ)) ∈ calculate_theme_volatility pt theme_groups)
    (hpos : ∀ p ∈ calculate_theme_volatility pt theme_groups, p.1 ≠ θ →
      ∃ v, p.2 = some v ∧ 0 < v) :
    lookupKey ((calculate_weights theme_groups pt none).2.1) θ = some RFloat.nan ∧
    ∀ p ∈ (calculate_weights theme_groups pt none).2.1, p.1 ≠ θ → p.2 = RFloat.fin 0 := by
  set vols := calculate_theme_volatility pt theme_groups with hvols
  have hS : RFloat.rsum (vols.map fun p => (RFloat.ofOpt p.2).recip) = .inf := by
    refine rsum_of_inf _ ?_ ?_
    · intro a ha
      obtain ⟨p, hp, rfl⟩ := List.mem_map.mp ha
      by_cases hpθ : p.1 = θ
      · have : p = (θ, some (0 : ℝ)) := mem_unique_of_nodup_keys hnd hp hθ hpθ
        rw [this]
        exact .inr (by rw [show RFloat.ofOpt (θ, some (0 : ℝ)).2 = .fin 0 from rfl,
          RFloat.recip_fin_zero])
      · obtain ⟨v, hv2, hvp⟩ := hpos p hp hpθ
        refine .inl ⟨v⁻¹, ?_⟩
        rw [hv2]
        exact RFloat.recip_fin (ne_of_gt hvp)
    · refine List.mem_map.mpr ⟨(θ, some (0 : ℝ)), hθ, ?_⟩
      rw [show RFloat.ofOpt (θ, some (0 : ℝ)).2 = .fin 0 from rfl, RFloat.recip_fin_zero]
  have hthw : (calculate_weights theme_groups pt none).2.1 =
      vols.map fun p => (p.1, ((RFloat.ofOpt p.2).recip).div
        (RFloat.rsum (vols.map fun q => (RFloat.ofOpt q.2).recip))) := by
    show theme_weights_of (vols.map fun p => (p.1, RFloat.ofOpt p.2)) none = _
    unfold theme_weights_of
    simp only [applyConviction]
    unfold normalizeWeights inverseVols
    simp only [List.map_map]
    rfl
  constructor
  · rw [hthw]
    have := lookupKey_map_of_nodup vols
      (fun p => ((RFloat.ofOpt p.2).recip).div
        (RFloat.rsum (vols.map fun q => (RFloat.ofOpt q.2).recip))) hnd hθ
    rw [show ((θ, some (0 : ℝ)) : String × Option ℝ).1 = θ from rfl] at this
    rw [this, hS]
    show some ((RFloat.ofOpt (some (0 : ℝ))).recip.div .inf) = some RFloat.nan
    rw [show RFloat.ofOpt (some (0 : ℝ)) = .fin 0 from rfl, RFloat.recip_fin_zero,
      RFloat.div_inf_inf]
  · intro p hp hne
    rw [hthw] at hp
    obtain ⟨q, hq, rfl⟩ := List.mem_map.mp hp
    obtain ⟨v, hv2, hvp⟩ := hpos q hq hne
    show ((RFloat.ofOpt q.2).recip).div _ = RFloat.fin 0
    rw [hv2, show RFloat.ofOpt (some v) = .fin v from rfl,
      RFloat.recip_fin (ne_of_gt hvp), hS, RFloat.div_fin_inf]

/-- Witness for the amended C5 at the constant-price table. -/
theorem c5_zero_vol_inf_weight_witness :
    ((keysOf (calculate_theme_volatility exC5 groupsA)).Nodup) ∧
    (("T", some (0 : ℝ)) ∈ calculate_theme_volatility exC5 groupsA) ∧
    (lookupKey ((calculate_weights groupsA exC5 none).2.1) "T" = some RFloat.nan ∧
      ∀ p ∈ (calculate_weights groupsA exC5 none).2.1, p.1 ≠ "T" → p.2 = RFloat.fin 0) := by
  have e : calculate_theme_volatility exC5 groupsA =
      [("T", some (Real.sqrt ((0 : ℚ) : ℝ) * Real.sqrt ((tradingDays : ℕ) : ℝ)))] := by
    with_unfolding_all rfl
  have hnd : (keysOf (calculate_theme_volatility exC5 groupsA)).Nodup := by
    rw [e]
    simp [keysOf]
  have hθ : ("T", some (0 : ℝ)) ∈ calculate_theme_volatility exC5 groupsA := by
    rw [e]
    simp [Real.sqrt_zero]
  have hpos : ∀ p ∈ calculate_theme_volatility exC5 groupsA, p.1 ≠ "T" →
      ∃ v, p.2 = some v ∧ 0 < v := by
    intro p hp hne
    rw [e] at hp
    obtain rfl := List.mem_singleton.mp hp
    exact absurd rfl hne
  exact ⟨hnd, hθ, c5_zero_vol_inf_weight exC5 groupsA ("T") hnd hθ hpos⟩

/-! ### C3: conviction multipliers move weights monotonically -/

/-- The finite payload of an extended value (0 on non-finite values). -/
noncomputable def RFloat.val : RFloat → ℝ
  | .fin x => x
  | _ => 0

theorem mem_of_lookupKey {α : Type} {l : List (String × α)} {k : String} {v : α}
    (h : lookupKey l k = some v) : (k, v) ∈ l := by
  induction l with
  | nil => cases h
  | cons p r ih =>
      by_cases hk : p.1 = k
      · rw [lookupKey, if_pos hk] at h
        obtain rfl := Option.some.inj h
        rw [← hk]
        exact List.mem_cons_self p r
      · rw [lookupKey, if_neg hk] at h
        exact List.mem_cons_of_mem p (ih h)

theorem RFloat.val_fin (x : ℝ) : (RFloat.fin x).val = x := rfl

theorem effMult_some (m : List (String × ℚ)) (θ : String) :
    effMult (some m) θ = (lookupKey m θ).getD 1 := rfl

theorem effMult_pos {m : List (String × ℚ)} (hm : ∀ q ∈ m, 0 < q.2) (θ : String) :
    0 < effMult (some m) θ := by
  rw [effMult_some]
  cases hl : lookupKey m θ with
  | none => norm_num
  | some k => simpa using hm (θ, k) (mem_of_lookupKey hl)

/-- C3: with at least two surviving themes, all volatilities finite and
positive, and positive conviction multipliers, raising one theme's
multiplier (others fixed) strictly raises that theme's normalized weight
and strictly lowers some other surviving theme's weight. -/
theorem c3_conviction_monotone (vols : List (String × RFloat)) (m m' : List (String × ℚ))
    (θ : String)
    (hnd : (keysOf vols).Nodup) (hlen : 2 ≤ vols.length)
    (hv : ∀ p ∈ vols, ∃ x, p.2 = .fin x ∧ 0 < x)
    (hm : ∀ q ∈ m, 0 < q.2) (hm' : ∀ q ∈ m', 0 < q.2)
    (hθ : θ ∈ keysOf vols)
    (hincr : effMult (some m) θ < effMult (some m') θ)
    (hagree : ∀ g, g ≠ θ → lookupKey m' g = lookupKey m g) :
    (∃ a b, lookupKey (theme_weights_of vols (some m)) θ = some (.fin a) ∧
            lookupKey (theme_weights_of vols (some m')) θ = some (.fin b) ∧ a < b) ∧
    ∃ g, g ∈ keysOf vols ∧ g ≠ θ ∧
      ∃ c d, lookupKey (theme_weights_of vols (some m)) g = some (.fin c) ∧
             lookupKey (theme_weights_of vols (some m')) g = some (.fin d) ∧ d < c := by
  obtain ⟨vs, hvs⟩ : ∃ vs : List (String × ℝ), vs = vols.map fun p => (p.1, p.2.val) :=
    ⟨_, rfl⟩
  have hvols_eq : vols = vs.map fun p => (p.1, RFloat.fin p.2) := by
    rw [hvs, List.map_map]
    symm
    have : ∀ p ∈ vols, ((fun p => (p.1, RFloat.fin p.2)) ∘ fun p => (p.1, p.2.val)) p = p := by
      intro p hp
      obtain ⟨x, hx, _⟩ := hv p hp
      show (p.1, RFloat.fin p.2.val) = p
      calc (p.1, RFloat.fin p.2.val) = (p.1, p.2) := by rw [hx, RFloat.val_fin]
        _ = p := Prod.mk.eta
    calc vols.map ((fun p => (p.1, RFloat.fin p.2)) ∘ fun p => (p.1, p.2.val))
        = vols.map id := List.map_congr_left this
      _ = vols := List.map_id vols
  have hkeys : keysOf vs = keysOf vols := by
    rw [hvs]
    unfold keysOf
    rw [List.map_map]
    rfl
  have hnd2 : (keysOf vs).Nodup := by rw [hkeys]; exact hnd
  have hvpos : ∀ q ∈ vs, 0 < q.2 := by
    intro q hq
    rw [hvs] at hq
    obtain ⟨p, hp, rfl⟩ := List.mem_map.mp hq
    obtain ⟨x, hx, hxpos⟩ := hv p hp
    show 0 < p.2.val
    rw [hx]
    exact hxpos
  have htermpos : ∀ (mu : List (String × ℚ)), (∀ q ∈ mu, 0 < q.2) →
      ∀ q ∈ vs, 0 < effTerm (some mu) q := by
    intro mu hmu q hq
    exact mul_pos (by exact_mod_cast effMult_pos hmu q.1) (inv_pos.mpr (hvpos q hq))
  -- split vs at the distinguished theme
  have hθ2 : θ ∈ keysOf vs := by rw [hkeys]; exact hθ
  obtain ⟨pθ, hpθmem, hpθ1⟩ := List.mem_map.mp hθ2
  obtain ⟨l₁, l₂, hsplit⟩ := List.append_of_mem hpθmem
  have hndsplit := hnd2
  rw [hsplit] at hndsplit
  have hkeysplit : keysOf (l₁ ++ pθ :: l₂) = keysOf l₁ ++ pθ.1 :: keysOf l₂ := by
    unfold keysOf
    rw [List.map_append, List.map_cons]
  rw [hkeysplit] at hndsplit
  obtain ⟨hnd_l₁, hnd_r, hdisj⟩ := List.nodup_append.mp hndsplit
  have hne₁ : ∀ q ∈ l₁, q.1 ≠ θ := by
    intro q hq he
    exact hdisj (List.mem_map.mpr ⟨q, hq, rfl⟩) (by rw [he, ← hpθ1]; exact List.mem_cons_self _ _)
  have hne₂ : ∀ q ∈ l₂, q.1 ≠ θ := by
    intro q hq he
    have := (List.nodup_cons.mp hnd_r).1
    exact this (by rw [hpθ1, ← he]; exact List.mem_map.mpr ⟨q, hq, rfl⟩)
  have hee : ∀ q : String × ℝ, q.1 ≠ θ → effTerm (some m') q = effTerm (some m) q := by
    intro q hq
    unfold effTerm
    rw [effMult_some, effMult_some, hagree q.1 hq]
  -- sums split
  have hsum : ∀ (mu : List (String × ℚ)), (vs.map (effTerm (some mu))).sum =
      (l₁.map (effTerm (some mu))).sum + (effTerm (some mu) pθ +
        (l₂.map (effTerm (some mu))).sum) := by
    intro mu
    rw [hsplit, List.map_append, List.sum_append, List.map_cons, List.sum_cons]
  have hrest : (l₁.map (effTerm (some m'))).sum = (l₁.map (effTerm (some m))).sum ∧
      (l₂.map (effTerm (some m'))).sum = (l₂.map (effTerm (some m))).sum := by
    constructor <;>
      [exact congrArg List.sum (List.map_congr_left fun q hq => hee q (hne₁ q hq));
       exact congrArg List.sum (List.map_congr_left fun q hq => hee q (hne₂ q hq))]
  have hmemrest : ∀ q ∈ l₁ ++ l₂, q ∈ vs := by
    intro q hq
    rw [hsplit]
    rcases List.mem_append.mp hq with h | h
    · exact List.mem_append_left _ h
    · exact List.mem_append_right _ (List.mem_cons_of_mem _ h)
  have hlen2 : l₁ ++ l₂ ≠ [] := by
    intro hnil
    have hlenvs : vs.length = vols.length := by rw [hvs]; exact List.length_map _ _
    have hge : 2 ≤ vs.length := by rw [hlenvs]; exact hlen
    have h1 : l₁ = [] := by
      cases hl : l₁ with
      | nil => rfl
      | cons a as => rw [hl] at hnil; cases hnil
    have h2 : l₂ = [] := by
      rw [h1] at hnil
      simpa using hnil
    rw [hsplit, h1, h2] at hge
    simp at hge
  set A := (l₁.map (effTerm (some m))).sum with hA
  set B := (l₂.map (effTerm (some m))).sum with hB
  set R := A + B with hR
  have hRpos : 0 < R := by
    have hRsum : R = ((l₁ ++ l₂).map (effTerm (some m))).sum := by
      rw [hR, hA, hB, List.map_append, List.sum_append]
    rw [hRsum]
    refine List.sum_pos _ ?_ ?_
    · intro x hx
      obtain ⟨q, hq, rfl⟩ := List.mem_map.mp hx
      exact htermpos m hm q (hmemrest q hq)
    · simpa using hlen2
  have heθ : 0 < effTerm (some m) pθ := htermpos m hm pθ hpθmem
  have heθ' : 0 < effTerm (some m') pθ := htermpos m' hm' pθ hpθmem
  have hSm : (vs.map (effTerm (some m))).sum = effTerm (some m) pθ + R := by
    rw [hsum m, hR, hA, hB]
    ring
  have hSm' : (vs.map (effTerm (some m'))).sum = effTerm (some m') pθ + R := by
    rw [hsum m', hrest.1, hrest.2, hR, hA, hB]
    ring
  have hSpos : 0 < (vs.map (effTerm (some m))).sum := by
    rw [hSm]; linarith
  have hSpos' : 0 < (vs.map (effTerm (some m'))).sum := by
    rw [hSm']; linarith
  have hθincr : effTerm (some m) pθ < effTerm (some m') pθ := by
    unfold effTerm
    rw [hpθ1]
    exact mul_lt_mul_of_pos_right (by exact_mod_cast hincr) (inv_pos.mpr (hvpos pθ hpθmem))
  -- the rewritten weight lists
  have hwm := theme_weights_of_fin vs (some m) (fun q hq => ne_of_gt (hvpos q hq))
    (ne_of_gt hSpos)
  have hwm' := theme_weights_of_fin vs (some m') (fun q hq => ne_of_gt (hvpos q hq))
    (ne_of_gt hSpos')
  have hlookm : ∀ (mu : List (String × ℚ)) (hSne : (vs.map (effTerm (some mu))).sum ≠ 0)
      (hw : theme_weights_of (vs.map fun p => (p.1, RFloat.fin p.2)) (some mu) =
        vs.map fun p => (p.1, RFloat.fin
          (effTerm (some mu) p / (vs.map (effTerm (some mu))).sum)))
      (q : String × ℝ), q ∈ vs →
      lookupKey (theme_weights_of vols (some mu)) q.1 =
        some (.fin (effTerm (some mu) q / (vs.map (effTerm (some mu))).sum)) := by
    intro mu _ hw q hq
    rw [hvols_eq, hw]
    exact lookupKey_map_of_nodup vs _ hnd2 hq
  constructor
  · refine ⟨effTerm (some m) pθ / (vs.map (effTerm (some m))).sum,
      effTerm (some m') pθ / (vs.map (effTerm (some m'))).sum, ?_, ?_, ?_⟩
    · rw [← hpθ1]
      exact hlookm m (ne_of_gt hSpos) hwm pθ hpθmem
    · rw [← hpθ1]
      exact hlookm m' (ne_of_gt hSpos') hwm' pθ hpθmem
    · rw [div_lt_div_iff₀ hSpos hSpos', hSm, hSm']
      nlinarith [hθincr, hRpos, heθ, heθ']
  · -- some other theme's weight strictly drops
    obtain ⟨p₀, hp₀⟩ := List.exists_mem_of_ne_nil _ hlen2
    have hp₀vs : p₀ ∈ vs := hmemrest p₀ hp₀
    have hp₀ne : p₀.1 ≠ θ := by
      rcases List.mem_append.mp hp₀ with h | h
      · exact hne₁ p₀ h
      · exact hne₂ p₀ h
    refine ⟨p₀.1, ?_, hp₀ne, effTerm (some m) p₀ / (vs.map (effTerm (some m))).sum,
      effTerm (some m') p₀ / (vs.map (effTerm (some m'))).sum, ?_, ?_, ?_⟩
    · rw [← hkeys]
      exact List.mem_map.mpr ⟨p₀, hp₀vs, rfl⟩
    · exact hlookm m (ne_of_gt hSpos) hwm p₀ hp₀vs
    · exact hlookm m' (ne_of_gt hSpos') hwm' p₀ hp₀vs
    · rw [hee p₀ hp₀ne]
      refine div_lt_div_of_pos_left (htermpos m hm p₀ hp₀vs) hSpos ?_
      rw [hSm, hSm']
      linarith

/-- The two-theme volatility mapping used to witness C3. -/
noncomputable def volsC3 : List (String × RFloat) := [("A", .fin 1), ("B", .fin 2)]

/-- Witness for C3: doubling theme A's multiplier from 1 to 2. -/
theorem c3_conviction_monotone_witness :
    (effMult (some [("A", (1 : ℚ))]) "A" < effMult (some [("A", (2 : ℚ))]) "A") ∧
    ((∃ a b, lookupKey (theme_weights_of volsC3 (some [("A", 1)])) "A" = some (.fin a) ∧
        lookupKey (theme_weights_of volsC3 (some [("A", 2)])) "A" = some (.fin b) ∧ a < b) ∧
      ∃ g, g ∈ keysOf volsC3 ∧ g ≠ "A" ∧
        ∃ c d, lookupKey (theme_weights_of volsC3 (some [("A", 1)])) g = some (.fin c) ∧
          lookupKey (theme_weights_of volsC3 (some [("A", 2)])) g = some (.fin d) ∧ d < c) := by
  have hincr : effMult (some [("A", (1 : ℚ))]) "A" < effMult (some [("A", (2 : ℚ))]) "A" := by
    rw [effMult_some, effMult_some]
    norm_num [lookupKey]
  refine ⟨hincr, ?_⟩
  refine c3_conviction_monotone volsC3 [("A", 1)] [("A", 2)] "A" ?_ ?_ ?_ ?_ ?_ ?_ hincr ?_
  · show (["A", "B"] : List String).Nodup
    decide
  · show 2 ≤ 2
    exact le_refl 2
  · intro p hp
    rcases List.mem_cons.mp hp with rfl | hp2
    · exact ⟨1, rfl, one_pos⟩
    · rcases List.mem_cons.mp hp2 with rfl | h0
      · exact ⟨2, rfl, two_pos⟩
      · cases h0
  · intro q hq
    obtain rfl := List.mem_singleton.mp hq
    norm_num
  · intro q hq
    obtain rfl := List.mem_singleton.mp hq
    norm_num
  · show ("A") ∈ (["A", "B"] : List String)
    decide
  · intro g hg
    have hne : ("A" : String) ≠ g := fun h => hg h.symm
    simp [lookupKey, hne]

/-! ### C2: ticker weights and the last-write-wins dict -/

theorem lookup_map_replace_self {α : Type} (m : List (String × α)) (k : String) (v : α)
    (h : ∃ p ∈ m, p.1 = k) :
    lookupKey (m.map fun p => if p.1 = k then (k, v) else p) k = some v := by
  induction m with
  | nil => obtain ⟨p, hp, _⟩ := h; cases hp
  | cons p r ih =>
      by_cases hp : p.1 = k
      · rw [List.map_cons, if_pos hp]
        show (if k = k then some v else _) = some v
        rw [if_pos rfl]
      · rw [List.map_cons, if_neg hp]
        show (if p.1 = k then some p.2 else _) = some v
        rw [if_neg hp]
        refine ih ?_
        obtain ⟨q, hq, hqk⟩ := h
        rcases List.mem_cons.mp hq with rfl | hqr
        · exact absurd hqk hp
        · exact ⟨q, hqr, hqk⟩

theorem lookup_map_replace_ne {α : Type} (m : List (String × α)) (k t : String) (v : α)
    (h : t ≠ k) :
    lookupKey (m.map fun p => if p.1 = k then (k, v) else p) t = lookupKey m t := by
  induction m with
  | nil => rfl
  | cons p r ih =>
      by_cases hp : p.1 = k
      · rw [List.map_cons, if_pos hp]
        show (if k = t then some v else _) = _
        rw [if_neg fun he => h he.symm, lookupKey, if_neg (by rw [hp]; exact fun he => h he.symm)]
        exact ih
      · rw [List.map_cons, if_neg hp]
        show (if p.1 = t then some p.2 else _) = (if p.1 = t then some p.2 else _)
        by_cases hpt : p.1 = t
        · rw [if_pos hpt, if_pos hpt]
        · rw [if_neg hpt, if_neg hpt]
          exact ih

theorem lookup_append_single_self {α : Type} (m : List (String × α)) (k : String) (v : α)
    (h : ∀ p ∈ m, p.1 ≠ k) :
    lookupKey (m ++ [(k, v)]) k = some v := by
  induction m with
  | nil => show (if k = k then some v else _) = some v; rw [if_pos rfl]
  | cons p r ih =>
      rw [List.cons_append]
      show (if p.1 = k then some p.2 else _) = some v
      rw [if_neg (h p (List.mem_cons_self p r))]
      exact ih fun q hq => h q (List.mem_cons_of_mem p hq)

theorem lookup_append_single_ne {α : Type} (m : List (String × α)) (k t : String) (v : α)
    (h : t ≠ k) :
    lookupKey (m ++ [(k, v)]) t = lookupKey m t := by
  induction m with
  | nil => show (if k = t then some v else _) = none; rw [if_neg fun he => h he.symm]; rfl
  | cons p r ih =>
      rw [List.cons_append]
      show (if p.1 = t then some p.2 else _) = (if p.1 = t then some p.2 else _)
      by_cases hpt : p.1 = t
      · rw [if_pos hpt, if_pos hpt]
      · rw [if_neg hpt, if_neg hpt]
        exact ih

theorem lookup_upsert_self {α : Type} (m : List (String × α)) (k : String) (v : α) :
    lookupKey (upsert m k v) k = some v := by
  unfold upsert
  by_cases hany : (m.any fun p => decide (p.1 = k)) = true
  · rw [if_pos hany]
    refine lookup_map_replace_self m k v ?_
    obtain ⟨p, hp, hpk⟩ := List.any_eq_true.mp hany
    exact ⟨p, hp, of_decide_eq_true hpk⟩
  · rw [if_neg hany]
    refine lookup_append_single_self m k v ?_
    intro p hp hpk
    exact hany (List.any_eq_true.mpr ⟨p, hp, decide_eq_true hpk⟩)

theorem lookup_upsert_ne {α : Type} (m : List (String × α)) (k t : String) (v : α)
    (h : t ≠ k) : lookupKey (upsert m k v) t = lookupKey m t := by
  unfold upsert
  by_cases hany : (m.any fun p => decide (p.1 = k)) = true
  · rw [if_pos hany]
    exact lookup_map_replace_ne m k t v h
  · rw [if_neg hany]
    exact lookup_append_single_ne m k t v h

theorem lookup_inner_upsert_fold {α : Type} (ts : List String) (v : α) :
    ∀ (acc : List (String × α)) (t : String),
      lookupKey (ts.foldl (fun a x => upsert a x v) acc) t =
        if t ∈ ts then some v else lookupKey acc t := by
  induction ts with
  | nil => intro acc t; simp
  | cons x r ih =>
      intro acc t
      rw [List.foldl_cons, ih]
      by_cases htr : t ∈ r
      · rw [if_pos htr, if_pos (List.mem_cons_of_mem x htr)]
      · rw [if_neg htr]
        by_cases htx : t = x
        · rw [htx, lookup_upsert_self, if_pos (List.mem_cons_self x r)]
        · rw [lookup_upsert_ne acc x t v htx,
            if_neg (by intro hm; rcases List.mem_cons.mp hm with h | h; exact htx h; exact htr h)]

/-- The last theme in processing order that both has a defined theme
weight and lists the ticker: its dict write is the one that survives. -/
def lastOwner (theme_groups : List (String × List String))
    (thw : List (String × RFloat)) (t : String) : Option (String × List String) :=
  theme_groups.reverse.find? fun tg => (lookupKey thw tg.1).isSome && tg.2.contains t

theorem lookup_ticker_fold (thw : List (String × RFloat)) (t : String) :
    ∀ (groups : List (String × List String)) (acc : List (String × RFloat)),
      lookupKey (groups.foldl
        (fun acc tg =>
          match lookupKey thw tg.1 with
          | none => acc
          | some w => tg.2.foldl
              (fun acc2 s => upsert acc2 s (w.div (.fin (tg.2.length : ℝ)))) acc) acc) t =
      match lastOwner groups thw t with
      | some tg => (lookupKey thw tg.1).map fun w => w.div (.fin (tg.2.length : ℝ))
      | none => lookupKey acc t := by
  intro groups
  induction groups with
  | nil => intro acc; rfl
  | cons g gs ih =>
      intro acc
      rw [List.foldl_cons, ih]
      have hrev : lastOwner (g :: gs) thw t =
          ((gs.reverse.find? fun tg => (lookupKey thw tg.1).isSome && tg.2.contains t).or
            ([g].find? fun tg => (lookupKey thw tg.1).isSome && tg.2.contains t)) := by
        unfold lastOwner
        rw [List.reverse_cons, List.find?_append]
      cases hfind : gs.reverse.find? fun tg => (lookupKey thw tg.1).isSome && tg.2.contains t with
      | some tg =>
          rw [show lastOwner gs thw t = some tg from hfind, hrev, hfind]
          rfl
      | none =>
          rw [show lastOwner gs thw t = none from hfind, hrev, hfind, Option.none_or]
          cases hw : lookupKey thw g.1 with
          | none =>
              simp only [List.find?_cons, hw, Option.isSome_none, Bool.false_and,
                List.find?_nil]
          | some w =>
              by_cases hmem : t ∈ g.2
              · have hct : g.2.contains t = true := List.elem_iff.mpr hmem
                simp only [List.find?_cons, hw, Option.isSome_some, Bool.true_and, hct]
                rw [lookup_inner_upsert_fold g.2 _ acc t]
                simp [hmem]
              · have hct : g.2.contains t = false := by
                  rw [Bool.eq_false_iff]
                  intro hc
                  exact hmem (List.elem_iff.mp hc)
                simp only [List.find?_cons, hw, Option.isSome_some, Bool.true_and, hct,
                  List.find?_nil]
                rw [lookup_inner_upsert_fold g.2 _ acc t]
                simp [hmem]

theorem lookup_tickerWeightsOf (groups : List (String × List String))
    (thw : List (String × RFloat)) (t θ : String) (ts : List String)
    (hlast : lastOwner groups thw t = some (θ, ts)) :
    lookupKey (tickerWeightsOf groups thw) t =
      (lookupKey thw θ).map fun w => w.div (.fin (ts.length : ℝ)) := by
  unfold tickerWeightsOf
  rw [lookup_ticker_fold thw t groups [], hlast]

/-- C2: for each theme with a defined weight w and full original ticker
list of length k, the ticker weight written is w / k (dividing by the
whole list, valid data or not); a ticker listed by several surviving
themes keeps only the last-processed theme's value (the dict entry is
overwritten). -/
theorem c2_ticker_weight_last_write (theme_groups : List (String × List String))
    (pt : PriceTable) (mult : Option (List (String × ℚ))) (t θ : String) (ts : List String)
    (hlast : lastOwner theme_groups ((calculate_weights theme_groups pt mult).2.1) t =
      some (θ, ts)) :
    lookupKey ((calculate_weights theme_groups pt mult).1) t =
      (lookupKey ((calculate_weights theme_groups pt mult).2.1) θ).map
        fun w => w.div (.fin (ts.length : ℝ)) :=
  lookup_tickerWeightsOf theme_groups ((calculate_weights theme_groups pt mult).2.1)
    t θ ts hlast

/-- Two themes sharing ticker Y, over a one-row table (weights present
with NaN values, which is all C2 needs). -/
def groupsC2 : List (String × List String) := [("T1", ["X", "Y"]), ("T2", ["Y"])]

/-- A single dated row quoting X and Y. -/
def exC2 : PriceTable := { cols := ["X", "Y"], rows := [[("X", 1), ("Y", 1)]] }

/-- Witness for C2: ticker Y is listed by themes T1 and T2; the surviving
entry is T2's weight divided by T2's list length 1. -/
theorem c2_ticker_weight_last_write_witness :
    (lastOwner groupsC2 ((calculate_weights groupsC2 exC2 none).2.1) "Y" =
      some ("T2", ["Y"])) ∧
    lookupKey ((calculate_weights groupsC2 exC2 none).1) "Y" =
      (lookupKey ((calculate_weights groupsC2 exC2 none).2.1) "T2").map
        fun w => w.div (.fin ((["Y"] : List String).length : ℝ)) :=
  ⟨by with_unfolding_all rfl,
   c2_ticker_weight_last_write groupsC2 exC2 none ("Y") ("T2") ["Y"]
     (by with_unfolding_all rfl)⟩

/-! ### C10: conviction multiplier input handling -/

theorem lookupKey_filter_keyed {m : List (String × ℚ)} {P : String × ℚ → Bool} {k : String}
    (hkey : ∀ q ∈ m, q.1 = k → P q = true) :
    lookupKey (m.filter P) k = lookupKey m k := by
  induction m with
  | nil => rfl
  | cons q r ih =>
      have htail : lookupKey (List.filter P r) k = lookupKey r k :=
        ih fun p hp hpk => hkey p (List.mem_cons_of_mem q hp) hpk
      by_cases hq : q.1 = k
      · rw [List.filter_cons, if_pos (hkey q (List.mem_cons_self q r) hq)]
        simp only [lookupKey]
        rw [if_pos hq, if_pos hq]
      · rw [List.filter_cons]
        by_cases hP : P q = true
        · rw [if_pos hP]
          simp only [lookupKey]
          rw [if_neg hq, if_neg hq]
          exact htail
        · rw [if_neg hP]
          have : lookupKey (q :: r) k = lookupKey r k := by
            simp only [lookupKey]
            rw [if_neg hq]
          rw [this, htail]

/-- C10: `calculate_weights` is insensitive to conviction entries whose
key is not a surviving theme (they are silently dropped with no warning),
and any multiplier value, zero or negative included, is multiplied into
the surviving theme's inverse with no validation. -/
theorem c10_conviction_input_robust (theme_groups : List (String × List String))
    (pt : PriceTable) (m : List (String × ℚ)) :
    calculate_weights theme_groups pt (some m) =
      calculate_weights theme_groups pt (some (m.filter fun q =>
        (keysOf (calculate_theme_volatility pt theme_groups)).contains q.1)) ∧
    ∀ (inv : List (String × RFloat)) (θ : String) (r : RFloat) (k : ℚ),
      lookupKey inv θ = some r → lookupKey m θ = some k →
      lookupKey (applyConviction inv (some m)) θ = some (RFloat.mulQ k r) := by
  constructor
  · have happ : applyConviction (inverseVols ((calculate_theme_volatility pt theme_groups).map
        fun p => (p.1, RFloat.ofOpt p.2))) (some m) =
      applyConviction (inverseVols ((calculate_theme_volatility pt theme_groups).map
        fun p => (p.1, RFloat.ofOpt p.2))) (some (m.filter fun q =>
          (keysOf (calculate_theme_volatility pt theme_groups)).contains q.1)) := by
      simp only [applyConviction]
      apply List.map_congr_left
      intro p hp
      have hkmem : p.1 ∈ keysOf (calculate_theme_volatility pt theme_groups) := by
        unfold inverseVols at hp
        obtain ⟨q, hq, rfl⟩ := List.mem_map.mp hp
        obtain ⟨s, hs, rfl⟩ := List.mem_map.mp hq
        exact List.mem_map.mpr ⟨s, hs, rfl⟩
      rw [lookupKey_filter_keyed fun q _ hqk => by
        rw [hqk]; exact List.elem_iff.mpr hkmem]
    have hthw : theme_weights_of ((calculate_theme_volatility pt theme_groups).map
        fun p => (p.1, RFloat.ofOpt p.2)) (some m) =
      theme_weights_of ((calculate_theme_volatility pt theme_groups).map
        fun p => (p.1, RFloat.ofOpt p.2)) (some (m.filter fun q =>
          (keysOf (calculate_theme_volatility pt theme_groups)).contains q.1)) := by
      unfold theme_weights_of
      rw [happ]
    exact congrArg (fun w => (tickerWeightsOf theme_groups w, w,
      calculate_theme_volatility pt theme_groups)) hthw
  · intro inv θ r k
    induction inv with
    | nil => intro hr _; cases hr
    | cons p rest ih =>
        intro hr hk
        by_cases hp : p.1 = θ
        · have hhead : lookupKey (p :: rest) θ = some p.2 := by
            simp only [lookupKey]
            rw [if_pos hp]
          rw [hhead] at hr
          obtain rfl := Option.some.inj hr
          simp only [applyConviction, List.map_cons, hp, hk]
          simp [lookupKey]
        · have hrr : lookupKey rest θ = some r := by
            simp only [lookupKey] at hr
            rw [if_neg hp] at hr
            exact hr
          have htail := ih hrr hk
          simp only [applyConviction, List.map_cons]
          cases hlm : lookupKey m p.1 with
          | some k2 =>
              simp only [hlm, lookupKey]
              rw [if_neg hp]
              simpa only [applyConviction] using htail
          | none =>
              simp only [hlm, lookupKey]
              rw [if_neg hp]
              simpa only [applyConviction] using htail

/-- A conviction dict holding an unknown theme key and a negative value. -/
def mC10 : List (String × ℚ) := [("T", -2), ("ZZZ", 5)]

/-- Witness for C10 over the one-row table: unknown key ZZZ is ignored
and the negative multiplier -2 is multiplied straight in. -/
theorem c10_conviction_input_robust_witness :
    (lookupKey [("T", RFloat.nan)] "T" = some RFloat.nan) ∧
    (lookupKey mC10 ("T") = some (-2)) ∧
    (calculate_weights groupsA exC7 (some mC10) =
      calculate_weights groupsA exC7 (some (mC10.filter fun q =>
        (keysOf (calculate_theme_volatility exC7 groupsA)).contains q.1))) ∧
    lookupKey (applyConviction [("T", RFloat.nan)] (some mC10)) "T" =
      some (RFloat.mulQ (-2) RFloat.nan) :=
  ⟨rfl, rfl, (c10_conviction_input_robust groupsA exC7 mC10).1,
   (c10_conviction_input_robust groupsA exC7 mC10).2 [("T", RFloat.nan)] "T"
     RFloat.nan (-2) rfl rfl⟩

end PortfolioAllocator
